import Mathlib

/-!
Verification of the ALINE core (migraine simulator and active-query policy)
against its design specification.

The Python sources are shallowly embedded:
* `src/ALINE/models/policy_utils.py` — priority scoring, top-k selection,
  policy evaluation, feature information gain (`torch` tensors become lists
  of real numbers; `torch.topk(sorted=True)` becomes a sort by value
  descending with lower index first on ties, its CPU behaviour).
* `src/ALINE/scripts/simulator.py` — the `MigraineSimulator`.  NumPy's
  `RandomState` is abstracted as a deterministic stream `ω : ℕ → ℝ` of
  standard variates indexed by the number of draws consumed so far; each
  primitive (`normal`, `lognormal`, `uniform`, `exponential`, `randn`,
  `binomial`) consumes one entry per scalar and transforms it by its
  parameters.  Python dictionary lookups that may raise `KeyError`, and the
  `raise ValueError` branches, are embedded with `Except String`.
  Log output of `_sample_observations` is embedded as an explicit list of
  warning strings (the source emits none there).
-/

namespace Ease

/-! ### Top-k selection (`select_topk_hours`, policy_utils.py lines 85-122) -/

/-- Ranking used to embed `torch.topk(..., sorted=True)` on one row of
scores: pair `(index, value)` comes first when its value is larger, or the
values are equal and its index is lower (ties by lowest index, the CPU
behaviour of `torch.topk`). -/
def topkRel {α : Type} [LinearOrder α] (p q : ℕ × α) : Prop :=
  q.2 < p.2 ∨ (p.2 = q.2 ∧ p.1 ≤ q.1)

instance topkRelDecidable {α : Type} [LinearOrder α] :
    DecidableRel (@topkRel α _) := fun p q => by
  unfold topkRel; infer_instance

instance topkRelTotal {α : Type} [LinearOrder α] :
    IsTotal (ℕ × α) topkRel := by
  constructor
  intro p q
  unfold topkRel
  rcases lt_trichotomy p.2 q.2 with h | h | h
  · exact Or.inr (Or.inl h)
  · rcases Nat.le_total p.1 q.1 with hi | hi
    · exact Or.inl (Or.inr ⟨h, hi⟩)
    · exact Or.inr (Or.inr ⟨h.symm, hi⟩)
  · exact Or.inl (Or.inl h)

instance topkRelTrans {α : Type} [LinearOrder α] :
    IsTrans (ℕ × α) topkRel := by
  constructor
  intro p q s hpq hqs
  unfold topkRel at *
  rcases hpq with h1 | ⟨h1, h1i⟩ <;> rcases hqs with h2 | ⟨h2, h2i⟩
  · exact Or.inl (h2.trans h1)
  · exact Or.inl (h2 ▸ h1)
  · exact Or.inl (lt_of_lt_of_eq h2 h1.symm)
  · exact Or.inr ⟨h1.trans h2, h1i.trans h2i⟩

/-- Embedding of `select_topk_hours` on a single row of scores, as pairs
`(index, value)`: `k` is clamped to the row length
(`k = min(k, priority_scores.size(1))`), and the first `k` pairs of the
ranking are returned. -/
def topkPairs {α : Type} [LinearOrder α] (scores : List α) (k : ℕ) :
    List (ℕ × α) :=
  (scores.enum.insertionSort topkRel).take (min k scores.length)

/-- The indices returned by `select_topk_hours` on one row. -/
def select_topk_hours {α : Type} [LinearOrder α] (scores : List α) (k : ℕ) :
    List ℕ :=
  (topkPairs scores k).map Prod.fst

/-- The scores returned by `select_topk_hours(..., return_scores=True)`. -/
def topk_scores {α : Type} [LinearOrder α] (scores : List α) (k : ℕ) :
    List α :=
  (topkPairs scores k).map Prod.snd

theorem topkPairs_sublist_sorted {α : Type} [LinearOrder α]
    (scores : List α) (k : ℕ) :
    List.Sublist (topkPairs scores k) (scores.enum.insertionSort topkRel) :=
  List.take_sublist _ _

theorem topkPairs_mem_enum {α : Type} [LinearOrder α] {scores : List α}
    {k : ℕ} {pr : ℕ × α} (h : pr ∈ topkPairs scores k) :
    scores[pr.1]? = some pr.2 := by
  have h1 : pr ∈ scores.enum.insertionSort topkRel :=
    (topkPairs_sublist_sorted scores k).subset h
  have h2 : pr ∈ scores.enum := (List.mem_insertionSort _).1 h1
  exact List.mem_enum_iff_getElem?.1 h2

theorem topkPairs_nodup_fst {α : Type} [LinearOrder α]
    (scores : List α) (k : ℕ) :
    ((topkPairs scores k).map Prod.fst).Nodup := by
  have hperm : List.Perm (scores.enum.insertionSort topkRel) scores.enum :=
    List.perm_insertionSort _ _
  have hnd : ((scores.enum.insertionSort topkRel).map Prod.fst).Nodup :=
    (hperm.map Prod.fst).nodup_iff.2 (List.nodup_enum_map_fst _)
  exact List.Nodup.sublist ((topkPairs_sublist_sorted scores k).map Prod.fst) hnd

theorem topkPairs_pairwise {α : Type} [LinearOrder α]
    (scores : List α) (k : ℕ) :
    (topkPairs scores k).Pairwise topkRel :=
  (List.sorted_insertionSort topkRel scores.enum).sublist
    (topkPairs_sublist_sorted scores k)

/-- C4: on every score row, `select_topk_hours` returns exactly
`min k scores.length` distinct in-range indices, ordered by strictly
descending score with equal scores ordered by the lower index first, and
every selected index's score is at least every unselected index's score. -/
theorem select_topk_hours_spec {α : Type} [LinearOrder α]
    (scores : List α) (k : ℕ) :
    (select_topk_hours scores k).length = min k scores.length ∧
    (select_topk_hours scores k).Nodup ∧
    (∀ i ∈ select_topk_hours scores k, i < scores.length) ∧
    (select_topk_hours scores k).Pairwise (fun i j =>
      ∀ a b, scores[i]? = some a → scores[j]? = some b →
        b < a ∨ (a = b ∧ i < j)) ∧
    (∀ i ∈ select_topk_hours scores k, ∀ j, j < scores.length →
      j ∉ select_topk_hours scores k →
      ∀ a b, scores[i]? = some a → scores[j]? = some b → b ≤ a) := by
  refine ⟨?_, topkPairs_nodup_fst scores k, ?_, ?_, ?_⟩
  · have hlen : (scores.enum.insertionSort topkRel).length = scores.length := by
      rw [List.length_insertionSort, List.enum_length]
    unfold select_topk_hours topkPairs
    rw [List.length_map, List.length_take, hlen]
    exact min_eq_left (min_le_right _ _)
  · intro i hi
    obtain ⟨pr, hpr, rfl⟩ := List.mem_map.1 hi
    have hget := topkPairs_mem_enum hpr
    exact (List.getElem?_eq_some.1 hget).1
  · have hnd : (topkPairs scores k).Pairwise fun p q : ℕ × α => p.1 ≠ q.1 :=
      List.pairwise_map.1 (topkPairs_nodup_fst scores k)
    have hcomb := (topkPairs_pairwise scores k).and hnd
    refine List.pairwise_map.2 (hcomb.imp_of_mem ?_)
    intro p q hp hq hr
    intro a b ha hb
    have hpa : a = p.2 := by
      have := topkPairs_mem_enum hp
      rw [this] at ha
      exact (Option.some_inj.1 ha).symm
    have hqb : b = q.2 := by
      have := topkPairs_mem_enum hq
      rw [this] at hb
      exact (Option.some_inj.1 hb).symm
    subst hpa; subst hqb
    rcases hr.1 with h | ⟨hv, hi⟩
    · exact Or.inl h
    · exact Or.inr ⟨hv, lt_of_le_of_ne hi hr.2⟩
  · intro i hi j hj hjout a b ha hb
    obtain ⟨pr, hpr, rfl⟩ := List.mem_map.1 hi
    have hpa : a = pr.2 := by
      have := topkPairs_mem_enum hpr
      rw [this] at ha
      exact (Option.some_inj.1 ha).symm
    have hjenum : (j, b) ∈ scores.enum := List.mem_enum_iff_getElem?.2 hb
    have hjsort : (j, b) ∈ scores.enum.insertionSort topkRel :=
      (List.mem_insertionSort _).2 hjenum
    have hsplit := List.take_append_drop (min k scores.length)
      (scores.enum.insertionSort topkRel)
    have hjcase : (j, b) ∈ topkPairs scores k ∨
        (j, b) ∈ (scores.enum.insertionSort topkRel).drop
          (min k scores.length) := by
      have := hjsort
      rw [← hsplit] at this
      simpa [topkPairs] using List.mem_append.1 this
    rcases hjcase with hin | hdrop
    · exact absurd (List.mem_map_of_mem Prod.fst hin) hjout
    · have hrel : topkRel pr (j, b) :=
        (List.sorted_insertionSort topkRel scores.enum).rel_of_mem_take_of_mem_drop
          hpr hdrop
      rcases hrel with h | ⟨hv, _⟩
      · exact le_of_lt (hpa ▸ h)
      · exact le_of_eq (hpa ▸ hv.symm)

/-- Witness for C4 at a concrete input: scores `[3, 1, 3, 2]` with `k = 2`
select two hours. -/
theorem select_topk_hours_spec_witness :
    (select_topk_hours ([3, 1, 3, 2] : List ℚ) 2).length = min 2 4 :=
  (select_topk_hours_spec ([3, 1, 3, 2] : List ℚ) 2).1

/-! ### Policy evaluation (`evaluate_policy`, policy_utils.py lines 125-158) -/

/-- Binary mask of length `T` with a one at each selected index, embedding
`selected_mask[i, selected_indices[i]] = 1.0` for one batch row. -/
def selected_mask (T : ℕ) (s : List ℕ) : List ℚ :=
  (List.range T).map fun t => if t ∈ s then 1 else 0

/-- Embedding of `evaluate_policy` (precision@k): `T` is the truth row
length, per batch row `correct` is the overlap of the selected-index mask
with the binary truth row, and the result is the mean over the batch of
`correct / k`.  Arithmetic is exact where the source uses float32. -/
def evaluate_policy (sel : List (List ℕ)) (truth : List (List ℚ))
    (k : ℕ) : ℚ :=
  let T := truth.headI.length
  let correct := List.zipWith
    (fun s tr => (List.zipWith (· * ·) (selected_mask T s) tr).sum) sel truth
  ((correct.map fun c => c / (k : ℚ)).sum) / (truth.length : ℚ)

theorem zip_mask_sum (s : List ℕ) :
    ∀ (ts : List ℕ) (tr : List ℚ),
      (List.zipWith (· * ·)
          (ts.map fun t => if t ∈ s then (1 : ℚ) else 0) tr).sum
        = ((ts.zip tr).map fun p =>
            (if p.1 ∈ s then (1 : ℚ) else 0) * p.2).sum
  | [], _ => by simp
  | _ :: _, [] => by simp
  | t :: ts, x :: tr => by
    simp only [List.map_cons, List.zipWith_cons_cons, List.zip_cons_cons,
      List.sum_cons]
    rw [zip_mask_sum s ts tr]

theorem selected_mask_sum (s : List ℕ) (tr : List ℚ) :
    (List.zipWith (· * ·) (selected_mask tr.length s) tr).sum
      = (tr.enum.map fun p =>
          (if p.1 ∈ s then (1 : ℚ) else 0) * p.2).sum := by
  rw [selected_mask, zip_mask_sum, List.enum_eq_zip_range]

theorem indicator_sum_le :
    ∀ (l : List (ℕ × ℚ)) (s : List ℕ), (l.map Prod.fst).Nodup →
      (l.map fun p => if p.1 ∈ s then (1 : ℚ) else 0).sum ≤ s.length
  | [], _, _ => by simp
  | p :: l, s, h => by
    simp only [List.map_cons, List.nodup_cons, List.mem_map] at h
    simp only [List.map_cons, List.sum_cons]
    by_cases hp : p.1 ∈ s
    · have hstep : (l.map fun q => if q.1 ∈ s then (1 : ℚ) else 0).sum
          ≤ (l.map fun q => if q.1 ∈ s.erase p.1 then (1 : ℚ) else 0).sum := by
        apply List.sum_le_sum
        intro q hq
        have hne : q.1 ≠ p.1 := by
          intro hcontra
          exact h.1 ⟨q, hq, hcontra⟩
        by_cases hqs : q.1 ∈ s
        · rw [if_pos hqs, if_pos (List.mem_erase_of_ne hne |>.2 hqs)]
        · rw [if_neg hqs, if_neg fun hc => hqs (List.mem_of_mem_erase hc)]
      have hrec := indicator_sum_le l (s.erase p.1) h.2
      have hlen : ((s.erase p.1).length : ℚ) + 1 = s.length := by
        rw [List.length_erase_of_mem hp]
        have h1 : 1 ≤ s.length := List.length_pos.2 (List.ne_nil_of_mem hp)
        norm_cast
        omega
      rw [if_pos hp]
      calc 1 + (l.map fun q => if q.1 ∈ s then (1 : ℚ) else 0).sum
          ≤ 1 + ((s.erase p.1).length : ℚ) := by
            have := hstep.trans hrec
            linarith
        _ = s.length := by linarith [hlen]
    · rw [if_neg hp]
      have := indicator_sum_le l s h.2
      linarith

theorem indicator_sum_eq :
    ∀ (l : List (ℕ × ℚ)) (s : List ℕ), (l.map Prod.fst).Nodup → s.Nodup →
      (∀ i ∈ s, i ∈ l.map Prod.fst) →
      (l.map fun p => if p.1 ∈ s then (1 : ℚ) else 0).sum = s.length
  | [], s, _, _, hcov => by
    have : s = [] := by
      cases s with
      | nil => rfl
      | cons a s => exact absurd (hcov a (List.mem_cons_self a s)) (by simp)
    simp [this]
  | p :: l, s, h, hs, hcov => by
    simp only [List.map_cons, List.nodup_cons, List.mem_map] at h
    simp only [List.map_cons, List.sum_cons]
    by_cases hp : p.1 ∈ s
    · have hrw : (l.map fun q => if q.1 ∈ s then (1 : ℚ) else 0)
          = l.map fun q => if q.1 ∈ s.erase p.1 then (1 : ℚ) else 0 := by
        apply List.map_congr_left
        intro q hq
        have hne : q.1 ≠ p.1 := fun hc => h.1 ⟨q, hq, hc⟩
        by_cases hqs : q.1 ∈ s
        · rw [if_pos hqs, if_pos ((List.mem_erase_of_ne hne).2 hqs)]
        · rw [if_neg hqs, if_neg fun hc => hqs (List.mem_of_mem_erase hc)]
      have hcov2 : ∀ i ∈ s.erase p.1, i ∈ l.map Prod.fst := by
        intro i hi
        have hine : i ≠ p.1 := (hs.mem_erase_iff.1 hi).1
        have := hcov i (List.mem_of_mem_erase hi)
        simp only [List.map_cons, List.mem_cons] at this
        rcases this with hcase | hcase
        · exact absurd hcase hine
        · exact hcase
      have hrec := indicator_sum_eq l (s.erase p.1) h.2 (hs.erase p.1) hcov2
      rw [if_pos hp, hrw, hrec, List.length_erase_of_mem hp]
      have h1 : 1 ≤ s.length := List.length_pos.2 (List.ne_nil_of_mem hp)
      norm_cast
      omega
    · have hcov2 : ∀ i ∈ s, i ∈ l.map Prod.fst := by
        intro i hi
        have := hcov i hi
        simp only [List.map_cons, List.mem_cons] at this
        rcases this with hcase | hcase
        · exact absurd (hcase ▸ hi) hp
        · exact hcase
      rw [if_neg hp, indicator_sum_eq l s h.2 hs hcov2]
      ring

theorem mem_of_some_getElem {α : Type} {l : List α} {n : ℕ} {a : α}
    (h : l[n]? = some a) : a ∈ l := by
  obtain ⟨hlt, rfl⟩ := List.getElem?_eq_some.1 h
  exact List.getElem_mem hlt

theorem mem_zipWith_exists {β γ δ : Type} {f : β → γ → δ} :
    ∀ {l1 : List β} {l2 : List γ} {x : δ}, x ∈ List.zipWith f l1 l2 →
      ∃ a ∈ l1, ∃ b ∈ l2, x = f a b
  | [], _, _, h => by simp at h
  | _ :: _, [], _, h => by simp at h
  | a :: l1, b :: l2, x, h => by
    rcases List.mem_cons.1 h with hx | hx
    · exact ⟨a, List.mem_cons_self _ _, b, List.mem_cons_self _ _, hx⟩
    · obtain ⟨a2, ha, b2, hb, hx⟩ := mem_zipWith_exists hx
      exact ⟨a2, List.mem_cons_of_mem _ ha, b2, List.mem_cons_of_mem _ hb, hx⟩

theorem row_correct_nonneg (s : List ℕ) (tr : List ℚ)
    (hbin : ∀ x ∈ tr, x = 0 ∨ x = 1) :
    0 ≤ (List.zipWith (· * ·) (selected_mask tr.length s) tr).sum := by
  rw [selected_mask_sum]
  apply List.sum_nonneg
  intro x hx
  obtain ⟨p, hp, rfl⟩ := List.mem_map.1 hx
  have hmem : p.2 ∈ tr := mem_of_some_getElem (List.mem_enum_iff_getElem?.1 hp)
  rcases hbin p.2 hmem with h | h <;> rw [h] <;> split <;> norm_num

theorem row_correct_le (s : List ℕ) (tr : List ℚ)
    (hbin : ∀ x ∈ tr, x = 0 ∨ x = 1) :
    (List.zipWith (· * ·) (selected_mask tr.length s) tr).sum
      ≤ (s.length : ℚ) := by
  rw [selected_mask_sum]
  calc (tr.enum.map fun p => (if p.1 ∈ s then (1 : ℚ) else 0) * p.2).sum
      ≤ (tr.enum.map fun p => if p.1 ∈ s then (1 : ℚ) else 0).sum := by
        apply List.sum_le_sum
        intro p hp
        have hmem : p.2 ∈ tr :=
          mem_of_some_getElem (List.mem_enum_iff_getElem?.1 hp)
        rcases hbin p.2 hmem with h | h <;> rw [h] <;> split <;> norm_num
    _ ≤ (s.length : ℚ) := indicator_sum_le tr.enum s (List.nodup_enum_map_fst tr)

theorem row_correct_eq (s : List ℕ) (tr : List ℚ) (hnd : s.Nodup)
    (hin : ∀ i ∈ s, i < tr.length ∧ tr.getD i 0 = 1) :
    (List.zipWith (· * ·) (selected_mask tr.length s) tr).sum
      = (s.length : ℚ) := by
  rw [selected_mask_sum]
  have hrw : (tr.enum.map fun p => (if p.1 ∈ s then (1 : ℚ) else 0) * p.2)
      = tr.enum.map fun p => if p.1 ∈ s then (1 : ℚ) else 0 := by
    apply List.map_congr_left
    intro p hp
    by_cases hps : p.1 ∈ s
    · have hget := List.mem_enum_iff_getElem?.1 hp
      have hval : tr.getD p.1 0 = p.2 := by
        rw [List.getD_eq_getElem?_getD, hget]
        rfl
      have h1 : p.2 = 1 := by rw [← hval]; exact (hin p.1 hps).2
      rw [h1, mul_one]
    · rw [if_neg hps, zero_mul]
  rw [hrw]
  apply indicator_sum_eq tr.enum s (List.nodup_enum_map_fst tr) hnd
  intro i hi
  rw [List.enum_map_fst, List.mem_range]
  exact (hin i hi).1

theorem correct_replicate {k T : ℕ} :
    ∀ {sel : List (List ℕ)} {truth : List (List ℚ)},
      List.Forall₂ (fun s tr => s.Nodup ∧ s.length = k ∧
        ∀ i ∈ s, i < tr.length ∧ tr.getD i 0 = 1) sel truth →
      (∀ tr ∈ truth, tr.length = T) →
      List.zipWith (fun s tr =>
          (List.zipWith (· * ·) (selected_mask T s) tr).sum) sel truth
        = List.replicate truth.length (k : ℚ)
  | _, _, List.Forall₂.nil, _ => rfl
  | _, _, List.Forall₂.cons h hrest, hT => by
    next s tr sel truth =>
    simp only [List.zipWith_cons_cons, List.length_cons, List.replicate_succ]
    have hTtr : tr.length = T := hT tr (List.mem_cons_self _ _)
    have hhead : (List.zipWith (· * ·) (selected_mask T s) tr).sum = (k : ℚ) := by
      rw [← hTtr, row_correct_eq s tr h.1 h.2.2, h.2.1]
    rw [hhead,
      correct_replicate hrest fun t ht => hT t (List.mem_cons_of_mem _ ht)]

/-- C5 amended: precision@k lies in `[0, 1]` provided each batch row selects
at most `k` indices (`k ≥ 1`, nonempty batch, binary truth rows of equal
length), and it equals exactly 1 when additionally each row's selected
indices are distinct, exactly `k` many, and all land on ones of its truth
row. -/
theorem evaluate_policy_spec (sel : List (List ℕ)) (truth : List (List ℚ))
    (k : ℕ) (hlen : sel.length = truth.length) (hne : truth ≠ [])
    (hk : 1 ≤ k)
    (hbin : ∀ tr ∈ truth, ∀ x ∈ tr, x = 0 ∨ x = 1)
    (hT : ∀ tr ∈ truth, tr.length = truth.headI.length)
    (hsel : ∀ s ∈ sel, s.length ≤ k) :
    (0 ≤ evaluate_policy sel truth k ∧ evaluate_policy sel truth k ≤ 1) ∧
    (List.Forall₂ (fun s tr => s.Nodup ∧ s.length = k ∧
        ∀ i ∈ s, i < tr.length ∧ tr.getD i 0 = 1) sel truth →
      evaluate_policy sel truth k = 1) := by
  have hkpos : (0 : ℚ) < (k : ℚ) := by exact_mod_cast hk
  have hBpos : (0 : ℚ) < (truth.length : ℚ) := by
    have : 0 < truth.length := List.length_pos.2 hne
    exact_mod_cast this
  have hunfold : evaluate_policy sel truth k =
      ((List.zipWith (fun s tr =>
        (List.zipWith (· * ·) (selected_mask truth.headI.length s) tr).sum)
        sel truth).map fun c => c / (k : ℚ)).sum / (truth.length : ℚ) := rfl
  constructor
  · rw [hunfold]
    set correct := List.zipWith (fun s tr =>
      (List.zipWith (· * ·) (selected_mask truth.headI.length s) tr).sum)
      sel truth with hcdef
    have hbounds : ∀ c ∈ correct, 0 ≤ c / (k : ℚ) ∧ c / (k : ℚ) ≤ 1 := by
      intro c hc
      obtain ⟨s, hs, tr, htr, rfl⟩ := mem_zipWith_exists hc
      have hTtr : tr.length = truth.headI.length := hT tr htr
      have h0 : 0 ≤ (List.zipWith (· * ·)
          (selected_mask truth.headI.length s) tr).sum := by
        rw [← hTtr]
        exact row_correct_nonneg s tr (hbin tr htr)
      have h1 : (List.zipWith (· * ·)
          (selected_mask truth.headI.length s) tr).sum ≤ (k : ℚ) := by
        rw [← hTtr]
        refine (row_correct_le s tr (hbin tr htr)).trans ?_
        exact_mod_cast hsel s hs
      exact ⟨div_nonneg h0 (le_of_lt hkpos), (div_le_one hkpos).2 h1⟩
    have hclen : correct.length = truth.length := by
      rw [hcdef, List.length_zipWith, hlen, min_self]
    constructor
    · apply div_nonneg _ (le_of_lt hBpos)
      apply List.sum_nonneg
      intro x hx
      obtain ⟨c, hc, rfl⟩ := List.mem_map.1 hx
      exact (hbounds c hc).1
    · rw [div_le_one hBpos]
      have := List.sum_le_card_nsmul (correct.map fun c => c / (k : ℚ)) 1 ?_
      · rw [List.length_map, hclen] at this
        simpa using this
      · intro x hx
        obtain ⟨c, hc, rfl⟩ := List.mem_map.1 hx
        exact (hbounds c hc).2
  · intro hF
    rw [hunfold, correct_replicate hF hT, List.map_replicate,
      div_self (ne_of_gt hkpos), List.sum_replicate, nsmul_eq_mul, mul_one,
      div_self (ne_of_gt hBpos)]

/-- Witness for C5 at a concrete input: one batch row selecting the single
index 0, truth row `[1, 0]`, `k = 1`. -/
theorem evaluate_policy_spec_witness :
    evaluate_policy [[0]] [[1, 0]] 1 = 1 :=
  (evaluate_policy_spec [[0]] [[1, 0]] 1 (by decide) (by decide) (by decide)
      (by decide) (by decide) (by decide)).2
    (by
      refine List.Forall₂.cons ?_ List.Forall₂.nil
      refine ⟨by decide, by decide, ?_⟩
      intro i hi
      rw [List.mem_singleton] at hi
      subst hi
      exact ⟨by norm_num, rfl⟩)

/-- C5 counterexample: with an explicit `k` smaller than the number of
selected indices the precision exceeds 1 (`k = 1`, three selected indices,
all-ones truth gives 3), and with duplicated selected indices the claimed
`= 1` case fails (`[0, 0]` against truth `[1, 1]` with `k = 2` gives 1/2
although every selected index is in the support and the support has `k`
elements). -/
theorem evaluate_policy_counterexample :
    evaluate_policy [[0, 1, 2]] [[1, 1, 1]] 1 = 3 ∧
    evaluate_policy [[0, 0]] [[1, 1]] 2 = 1 / 2 := by
  constructor <;> norm_num [evaluate_policy, selected_mask, List.range_succ]

/-! ### Temporal features (`_compute_temporal_features`, simulator.py
lines 166-191) -/

/-- Day of week for simulation day `day` (0 = Monday):
`(start_day_of_week + day) % 7`. -/
def day_of_week (day start_day_of_week : ℕ) : ℕ :=
  (start_day_of_week + day) % 7

/-- Approximate week of year: `(day // 7) % 52`. -/
def week_of_year (day : ℕ) : ℕ := (day / 7) % 52

noncomputable section

/-- Cyclical encoding `sin(2π · day_of_week / 7)`. -/
def day_of_week_sin (day start_day_of_week : ℕ) : ℝ :=
  Real.sin (2 * Real.pi * (day_of_week day start_day_of_week) / 7)

/-- Cyclical encoding `cos(2π · day_of_week / 7)`. -/
def day_of_week_cos (day start_day_of_week : ℕ) : ℝ :=
  Real.cos (2 * Real.pi * (day_of_week day start_day_of_week) / 7)

/-- Cyclical encoding `sin(2π · week_of_year / 52)`. -/
def week_of_year_sin (day : ℕ) : ℝ :=
  Real.sin (2 * Real.pi * (week_of_year day) / 52)

/-- Cyclical encoding `cos(2π · week_of_year / 52)`. -/
def week_of_year_cos (day : ℕ) : ℝ :=
  Real.cos (2 * Real.pi * (week_of_year day) / 52)

/-- The four temporal features returned by `_compute_temporal_features`. -/
def temporal_features (day start_day_of_week : ℕ) : ℝ × ℝ × ℝ × ℝ :=
  (day_of_week_sin day start_day_of_week,
   day_of_week_cos day start_day_of_week,
   week_of_year_sin day, week_of_year_cos day)

end

theorem day_of_week_period (day start_day_of_week : ℕ) :
    day_of_week (day + 7) start_day_of_week
      = day_of_week day start_day_of_week := by
  unfold day_of_week
  rw [← Nat.add_assoc, Nat.add_mod_right]

theorem week_of_year_period (day : ℕ) :
    week_of_year (day + 364) = week_of_year day := by
  unfold week_of_year
  have h : (day + 364) / 7 = day / 7 + 52 := by
    have := Nat.add_mul_div_right day 52 (show 0 < 7 by norm_num)
    norm_num at this
    omega
  rw [h, Nat.add_mod_right]

/-- C7: every sin/cos pair emitted by `_compute_temporal_features`
satisfies `sin² + cos² = 1` within tolerance `1e-9` (it is in fact exact),
the day-of-week pair is exactly 7-day periodic for every day and starting
weekday, and the week-of-year pair is exactly 52-week (364-day)
periodic. -/
theorem temporal_features_spec (day start_day_of_week : ℕ) :
    (|day_of_week_sin day start_day_of_week ^ 2
        + day_of_week_cos day start_day_of_week ^ 2 - 1| ≤ 1e-9 ∧
      |week_of_year_sin day ^ 2 + week_of_year_cos day ^ 2 - 1| ≤ 1e-9) ∧
    (day_of_week_sin (day + 7) start_day_of_week
        = day_of_week_sin day start_day_of_week ∧
      day_of_week_cos (day + 7) start_day_of_week
        = day_of_week_cos day start_day_of_week) ∧
    (week_of_year_sin (day + 364) = week_of_year_sin day ∧
      week_of_year_cos (day + 364) = week_of_year_cos day) := by
  refine ⟨⟨?_, ?_⟩, ⟨?_, ?_⟩, ?_, ?_⟩
  · rw [day_of_week_sin, day_of_week_cos, Real.sin_sq_add_cos_sq]
    norm_num
  · rw [week_of_year_sin, week_of_year_cos, Real.sin_sq_add_cos_sq]
    norm_num
  · rw [day_of_week_sin, day_of_week_sin, day_of_week_period]
  · rw [day_of_week_cos, day_of_week_cos, day_of_week_period]
  · rw [week_of_year_sin, week_of_year_sin, week_of_year_period]
  · rw [week_of_year_cos, week_of_year_cos, week_of_year_period]

/-! ### Migraine probability (`_migraine_probability`, simulator.py
lines 158-164) -/

noncomputable section

/-- Dot product of two equal-length real vectors (`np.dot`). -/
def dot (u v : List ℝ) : ℝ := (List.zipWith (· * ·) u v).sum

/-- Logistic sigmoid `1 / (1 + exp(-x))`. -/
def sigmoid (x : ℝ) : ℝ := 1 / (1 + Real.exp (-x))

/-- Embedding of `np.clip(x, lo, hi)`. -/
def npClip (x lo hi : ℝ) : ℝ := min (max x lo) hi

/-- Embedding of `MigraineSimulator._migraine_probability`:
`np.clip(1 / (1 + exp(-(w @ Z + b))), 0.0, 1.0)`.  The logit is passed to
the exponential unclamped, exactly as in the source. -/
def migraine_probability (w : List ℝ) (b : ℝ) (Z : List ℝ) : ℝ :=
  npClip (sigmoid (dot w Z + b)) 0 1

/-- Modelled from the spec: the variant of `_migraine_probability` that the
spec sentence "sigmoid logits clamped before exponentiation" describes,
with the logit clamped to `[lo, hi]` before the sigmoid.  No such clamp
exists in `simulator.py`; this definition exists only to be compared with
`migraine_probability`. -/
def migraine_probability_clamped (lo hi : ℝ) (w : List ℝ) (b : ℝ)
    (Z : List ℝ) : ℝ :=
  npClip (sigmoid (npClip (dot w Z + b) lo hi)) 0 1

end

theorem sigmoid_pos (x : ℝ) : 0 < sigmoid x := by
  unfold sigmoid
  positivity

theorem sigmoid_lt_one (x : ℝ) : sigmoid x < 1 := by
  unfold sigmoid
  rw [div_lt_one (by positivity)]
  linarith [Real.exp_pos (-x)]

theorem sigmoid_strictMono {x y : ℝ} (h : x < y) : sigmoid x < sigmoid y := by
  unfold sigmoid
  have hexp : Real.exp (-y) < Real.exp (-x) := Real.exp_lt_exp.2 (by linarith)
  have h1 : (0 : ℝ) < 1 + Real.exp (-y) := by positivity
  rw [div_lt_div_iff₀ (by positivity) h1]
  linarith

/-- C6 amended: `probability(Z) = clip(sigmoid(w·Z+b), 0, 1)`, the clip is
a no-op, and the result is strictly inside `(0, 1)`; the logit is NOT
clamped before exponentiation (see the counterexample). -/
theorem migraine_probability_spec (w : List ℝ) (b : ℝ) (Z : List ℝ) :
    migraine_probability w b Z = sigmoid (dot w Z + b) ∧
    0 < migraine_probability w b Z ∧ migraine_probability w b Z < 1 := by
  have heq : migraine_probability w b Z = sigmoid (dot w Z + b) := by
    unfold migraine_probability npClip
    rw [max_eq_left (le_of_lt (sigmoid_pos _)),
      min_eq_left (le_of_lt (sigmoid_lt_one _))]
  exact ⟨heq, heq ▸ sigmoid_pos _, heq ▸ sigmoid_lt_one _⟩

/-- C6 counterexample: there are no clamp bounds `lo, hi` for which
`_migraine_probability` with weights `[1]` and bias `0` factors through a
logit clamped to `[lo, hi]`: the source applies `exp` to the raw logit, so
any finite clamp changes the output at some latent state. -/
theorem migraine_probability_no_clamp :
    ¬ ∃ lo hi : ℝ, ∀ Z : List ℝ,
      migraine_probability [1] 0 Z
        = migraine_probability_clamped lo hi [1] 0 Z := by
  rintro ⟨lo, hi, h⟩
  have hdot : ∀ x : ℝ, dot [1] [x] + 0 = x := by
    intro x
    unfold dot
    simp
  have hclamp : ∀ x : ℝ, max lo hi < x → npClip x lo hi = hi := by
    intro x hx
    unfold npClip
    rw [max_eq_left (le_of_lt (lt_of_le_of_lt (le_max_left lo hi) hx)),
      min_eq_right (le_of_lt (lt_of_le_of_lt (le_max_right lo hi) hx))]
  have h1 := h [max lo hi + 1]
  have h2 := h [max lo hi + 2]
  rw [migraine_probability_clamped] at h1 h2
  rw [hdot] at h1 h2
  rw [hclamp _ (by linarith)] at h1
  rw [hclamp _ (by linarith)] at h2
  have heq : migraine_probability [1] 0 [max lo hi + 1]
      = migraine_probability [1] 0 [max lo hi + 2] := h1.trans h2.symm
  have hs1 := (migraine_probability_spec [1] 0 [max lo hi + 1]).1
  have hs2 := (migraine_probability_spec [1] 0 [max lo hi + 2]).1
  rw [hs1, hs2, hdot, hdot] at heq
  exact absurd heq (ne_of_lt (sigmoid_strictMono (by linarith)))

/-! ### Feature sampling (`_sample_feature`, simulator.py lines 67-98) -/

/-- A feature prior as read from `priors.yaml`: a Python dict whose keys
are all optional; `prior.get('dist', 'normal')` defaults a missing kind to
`"normal"`. -/
structure Prior where
  dist : Option String
  mu : Option ℝ
  sigma : Option ℝ
  mu_ln : Option ℝ
  sigma_ln : Option ℝ
  min : Option ℝ
  max : Option ℝ

noncomputable section

/-- `rng.normal(mu, sigma)`: consumes one stream entry, which stands for
the standard normal variate the generator produces at position `p`. -/
def rngNormal (ω : ℕ → ℝ) (p : ℕ) (mu sigma : ℝ) : ℝ × ℕ :=
  (mu + sigma * ω p, p + 1)

/-- `rng.lognormal(mu_ln, sigma_ln) = exp(normal(mu_ln, sigma_ln))`. -/
def rngLognormal (ω : ℕ → ℝ) (p : ℕ) (mu sigma : ℝ) : ℝ × ℕ :=
  (Real.exp (mu + sigma * ω p), p + 1)

/-- `rng.uniform(min, max)`: the stream entry stands for the U[0,1)
variate at position `p`. -/
def rngUniform (ω : ℕ → ℝ) (p : ℕ) (lo hi : ℝ) : ℝ × ℕ :=
  (lo + (hi - lo) * ω p, p + 1)

/-- `rng.exponential(scale)`: the stream entry stands for the unit
exponential variate at position `p`. -/
def rngExponential (ω : ℕ → ℝ) (p : ℕ) (scale : ℝ) : ℝ × ℕ :=
  (scale * ω p, p + 1)

/-- `rng.randn()`: one standard normal draw. -/
def rngRandn (ω : ℕ → ℝ) (p : ℕ) : ℝ × ℕ := (ω p, p + 1)

/-- Dispatch of `_sample_feature` before the final clip: `KeyError` on a
missing required dictionary key, `ValueError` on an unknown kind,
`prior.get('mu_ln', 1.0)` silently defaulting the exponential scale, and a
placeholder `0.0` for cyclical features (no draw consumed). -/
def sample_feature_base (ω : ℕ → ℝ) (prior : Prior) (p : ℕ) :
    Except String (ℝ × ℕ) :=
  let distType := prior.dist.getD "normal"
  if distType = "normal" then
    match prior.mu with
    | none => .error "KeyError: mu"
    | some mu =>
      match prior.sigma with
      | none => .error "KeyError: sigma"
      | some sigma => .ok (rngNormal ω p mu sigma)
  else if distType = "lognormal" then
    match prior.mu_ln with
    | none => .error "KeyError: mu_ln"
    | some muLn =>
      match prior.sigma_ln with
      | none => .error "KeyError: sigma_ln"
      | some sigmaLn => .ok (rngLognormal ω p muLn sigmaLn)
  else if distType = "uniform" then
    match prior.min with
    | none => .error "KeyError: min"
    | some lo =>
      match prior.max with
      | none => .error "KeyError: max"
      | some hi => .ok (rngUniform ω p lo hi)
  else if distType = "exponential" then
    .ok (rngExponential ω p (prior.mu_ln.getD 1))
  else if distType = "cyclical" then
    .ok (0, p)
  else
    .error ("Unknown distribution type: " ++ distType)

/-- Post-hoc clip of `_sample_feature`: applied exactly when both bounds
are declared (`if 'min' in prior and 'max' in prior`), regardless of the
distribution kind. -/
def clipPrior (prior : Prior) (r : ℝ × ℕ) : ℝ × ℕ :=
  match prior.min, prior.max with
  | some lo, some hi => (npClip r.1 lo hi, r.2)
  | _, _ => r

/-- Embedding of `MigraineSimulator._sample_feature`. -/
def sample_feature (ω : ℕ → ℝ) (prior : Prior) (p : ℕ) :
    Except String (ℝ × ℕ) :=
  (sample_feature_base ω prior p).map (clipPrior prior)

end

/-- C3: whenever a prior declares both bounds with `min <= max`, any value
`_sample_feature` successfully returns lies in `[min, max]`, whatever the
distribution kind and whatever the RNG stream produced. -/
theorem sample_feature_bounds (ω : ℕ → ℝ) (prior : Prior) (p : ℕ)
    (lo hi : ℝ) (hmin : prior.min = some lo) (hmax : prior.max = some hi)
    (hlohi : lo ≤ hi) (v : ℝ) (q : ℕ)
    (hok : sample_feature ω prior p = .ok (v, q)) :
    lo ≤ v ∧ v ≤ hi := by
  rw [sample_feature] at hok
  cases hb : sample_feature_base ω prior p with
  | error e => rw [hb] at hok; exact absurd hok (by simp [Except.map])
  | ok r =>
    rw [hb] at hok
    simp only [Except.map, clipPrior, hmin, hmax, Except.ok.injEq,
      Prod.mk.injEq] at hok
    obtain ⟨hv, _⟩ := hok
    rw [← hv]
    unfold npClip
    constructor
    · exact le_min (le_max_right _ _) hlohi
    · exact min_le_right _ _

/-- Witness for C3: a normal prior with bounds `[-1, 1]` and a stream
producing 5 yields the clipped value 1. -/
theorem sample_feature_bounds_witness :
    (-1 : ℝ) ≤ 1 ∧ (1 : ℝ) ≤ 1 :=
  sample_feature_bounds (fun _ => 5)
    ⟨some "normal", some 0, some 1, none, none, some (-1), some 1⟩ 0
    (-1) 1 rfl rfl (by norm_num) 1 1
    (by
      simp only [sample_feature, sample_feature_base, clipPrior, rngNormal,
        npClip, Except.map]
      norm_num)

/-- Whether a given prior makes `_sample_feature` raise: an unrecognized
kind, or a missing required parameter for Normal (`mu`, `sigma`),
LogNormal (`mu_ln`, `sigma_ln`) or Uniform (`min`, `max`).  Exponential
and Cyclical priors never raise: a missing exponential scale is silently
defaulted to 1.0. -/
def sampleFatal (prior : Prior) : Bool :=
  let distType := prior.dist.getD "normal"
  if distType = "normal" then prior.mu.isNone || prior.sigma.isNone
  else if distType = "lognormal" then
    prior.mu_ln.isNone || prior.sigma_ln.isNone
  else if distType = "uniform" then prior.min.isNone || prior.max.isNone
  else if distType = "exponential" then false
  else if distType = "cyclical" then false
  else true

/-- Whether an `Except` value is an error. -/
def isErr {ε α : Type} : Except ε α → Bool
  | .error _ => true
  | .ok _ => false

theorem isErr_map {ε α β : Type} (f : α → β) (e : Except ε α) :
    isErr (e.map f) = isErr e := by
  cases e <;> rfl

/-- C8 amended: `_sample_feature` fails fatally exactly on an unrecognized
kind or a missing required parameter of the Normal, LogNormal or Uniform
kinds; a missing Exponential scale parameter does NOT fail but is silently
defaulted to 1.0 (`prior.get('mu_ln', 1.0)`). -/
theorem sample_feature_fatal_iff (ω : ℕ → ℝ) (prior : Prior) (p : ℕ) :
    isErr (sample_feature ω prior p) = sampleFatal prior := by
  rw [sample_feature, isErr_map]
  simp only [sample_feature_base, sampleFatal]
  split_ifs
  · cases prior.mu <;> cases prior.sigma <;> simp [isErr]
  · cases prior.mu_ln <;> cases prior.sigma_ln <;> simp [isErr]
  · cases prior.min <;> cases prior.max <;> simp [isErr]
  · simp [isErr]
  · simp [isErr]
  · simp [isErr]

/-- Witness for C8's amended characterization at a concrete prior: a
normal prior missing `sigma` is fatal. -/
theorem sample_feature_fatal_iff_witness :
    isErr (sample_feature (fun _ => 0)
        ⟨some "normal", some 0, none, none, none, none, none⟩ 0)
      = sampleFatal ⟨some "normal", some 0, none, none, none, none, none⟩ :=
  sample_feature_fatal_iff (fun _ => 0)
    ⟨some "normal", some 0, none, none, none, none, none⟩ 0

/-- An exponential prior that declares no parameter at all. -/
def expPriorNoScale : Prior :=
  ⟨some "exponential", none, none, none, none, none, none⟩

/-- C8 counterexample: sampling from an Exponential prior whose scale
parameter is missing does not raise: `_sample_feature` silently uses
`prior.get('mu_ln', 1.0)` and returns `1.0 * draw`, here `2`, contradicting
the claim that a missing required kind-specific parameter (the scale for
Exponential) fails fatally and is never silently defaulted. -/
theorem exponential_missing_scale_ok :
    sample_feature (fun _ => 2) expPriorNoScale 0 = .ok (2, 1) ∧
    expPriorNoScale.mu_ln = none := by
  constructor
  · simp only [sample_feature, sample_feature_base, expPriorNoScale,
      clipPrior, rngExponential, Except.map]
    norm_num
    rfl
  · rfl

/-! ### Observation sampling (`_sample_observations`, simulator.py
lines 100-112) -/

/-- Embedding of `SimulatorConfig` (the fields the simulation core
reads). -/
structure SimConfig where
  n_users : ℕ
  horizon : ℕ
  latent_dim : ℕ
  state_transition_matrix : List (List ℝ)
  input_matrix : List (List ℝ)
  process_noise : List ℝ
  migraine_weights : List ℝ
  migraine_bias : ℝ
  feature_order : List String
  priors : List (String × Prior)

/-- Dictionary lookup `config.priors[feature_name]` guarded by
`feature_name in config.priors`. -/
def findPrior (cfg : SimConfig) (name : String) : Option Prior :=
  (cfg.priors.find? fun pr => pr.1 == name).map Prod.snd

noncomputable section

/-- Loop body of `_sample_observations` over the ordered feature list,
threading the RNG position.  The middle component collects the warnings
the loop logs: the source logs nothing here, in particular the
missing-prior branch falls back to `self.rng.randn()` silently. -/
def sampleObsGo (ω : ℕ → ℝ) (cfg : SimConfig) :
    List String → ℕ → Except String (List ℝ × List String × ℕ)
  | [], p => .ok ([], [], p)
  | f :: rest, p =>
    match findPrior cfg f with
    | some prior =>
      match sample_feature ω prior p with
      | .error e => .error e
      | .ok (v, p1) =>
        match sampleObsGo ω cfg rest p1 with
        | .error e => .error e
        | .ok (vs, ws, p2) => .ok (v :: vs, ws, p2)
    | none =>
      match sampleObsGo ω cfg rest (p + 1) with
      | .error e => .error e
      | .ok (vs, ws, p2) => .ok (ω p :: vs, ws, p2)

/-- Embedding of `MigraineSimulator._sample_observations`. -/
def sample_observations (ω : ℕ → ℝ) (cfg : SimConfig) (p : ℕ) :
    Except String (List ℝ × List String × ℕ) :=
  sampleObsGo ω cfg cfg.feature_order p

end

theorem sampleObsGo_no_warnings (ω : ℕ → ℝ) (cfg : SimConfig) :
    ∀ (fs : List String) (p : ℕ) (vals : List ℝ) (ws : List String) (q : ℕ),
      sampleObsGo ω cfg fs p = .ok (vals, ws, q) → ws = []
  | [], p, vals, ws, q, h => by
    simp only [sampleObsGo, Except.ok.injEq, Prod.mk.injEq] at h
    exact h.2.1.symm
  | f :: rest, p, vals, ws, q, h => by
    rw [sampleObsGo] at h
    cases hf : findPrior cfg f with
    | some prior =>
      simp only [hf] at h
      cases hs : sample_feature ω prior p with
      | error e =>
        simp only [hs] at h
        exact Except.noConfusion h
      | ok r =>
        obtain ⟨v, p1⟩ := r
        simp only [hs] at h
        cases hr : sampleObsGo ω cfg rest p1 with
        | error e =>
          simp only [hr] at h
          exact Except.noConfusion h
        | ok out =>
          obtain ⟨vs2, ws2, p2⟩ := out
          simp only [hr, Except.ok.injEq, Prod.mk.injEq] at h
          rw [← h.2.1]
          exact sampleObsGo_no_warnings ω cfg rest p1 vs2 ws2 p2 (by rw [hr])
    | none =>
      simp only [hf] at h
      cases hr : sampleObsGo ω cfg rest (p + 1) with
      | error e =>
        simp only [hr] at h
        exact Except.noConfusion h
      | ok out =>
        obtain ⟨vs2, ws2, p2⟩ := out
        simp only [hr, Except.ok.injEq, Prod.mk.injEq] at h
        rw [← h.2.1]
        exact sampleObsGo_no_warnings ω cfg rest (p + 1) vs2 ws2 p2
          (by rw [hr])

/-- C9 amended: a feature of the ordered list with no registry entry does
not abort the observation sampler: it degrades to one standard-normal draw
(`self.rng.randn()`), and no warning is emitted — the fallback is silent
(the spec flags this as an open question in §9). -/
theorem missing_prior_fallback (ω : ℕ → ℝ) (cfg : SimConfig) (f : String)
    (rest : List String) (p : ℕ) (hmissing : findPrior cfg f = none) :
    sampleObsGo ω cfg (f :: rest) p
      = (sampleObsGo ω cfg rest (p + 1)).map
          (fun r => (ω p :: r.1, r.2)) ∧
    ∀ (vals : List ℝ) (ws : List String) (q : ℕ),
      sampleObsGo ω cfg (f :: rest) p = .ok (vals, ws, q) → ws = [] := by
  constructor
  · rw [sampleObsGo, hmissing]
    cases hr : sampleObsGo ω cfg rest (p + 1) with
    | error e => rfl
    | ok out => rfl
  · exact fun vals ws q h => sampleObsGo_no_warnings ω cfg _ p vals ws q h

/-- A minimal configuration whose single feature `"g"` has no prior
registry entry. -/
def cfg9 : SimConfig :=
  ⟨1, 1, 4, [], [], [], [], 0, ["g"], []⟩

/-- The identity stream of standard variates, used for concrete runs. -/
noncomputable def ωid : ℕ → ℝ := fun n => (n : ℝ)

/-- Witness for C9's amended statement at the concrete configuration
`cfg9`, whose feature `"g"` is absent from the registry. -/
theorem missing_prior_fallback_witness :
    sampleObsGo ωid cfg9 ["g"] 0
      = (sampleObsGo ωid cfg9 [] (0 + 1)).map
          (fun r => (ωid 0 :: r.1, r.2)) :=
  (missing_prior_fallback ωid cfg9 "g" [] 0 rfl).1

/-- C9 counterexample: running `_sample_observations` on `cfg9` (feature
`"g"` missing from the registry) succeeds with the standard-normal draw
`ω 0 = 0` and emits NO warning — the warning channel is empty,
contradicting the claim that a warning is emitted on this fallback. -/
theorem missing_prior_no_warning_emitted :
    sample_observations ωid cfg9 0 = .ok ([0], [], 1) := by
  simp only [sample_observations, cfg9, sampleObsGo, findPrior, ωid,
    List.find?_nil, Except.map, Nat.cast_zero]
  rfl

/-! ### Priority scoring (`compute_priority_scores`, policy_utils.py
lines 18-82) -/

noncomputable section

/-- Mean of one row (`posterior_std.mean(dim=-1)`). -/
def meanList (l : List ℝ) : ℝ := l.sum / l.length

/-- Euclidean norm of the weight vector (`torch.norm`). -/
def norm2 (w : List ℝ) : ℝ := Real.sqrt ((w.map fun x => x ^ 2).sum)

/-- The entropy term of `compute_priority_scores`:
`-(p * log(p + eps) + (1 - p) * log(1 - p + eps))` with `eps = 1e-6` added
inside the logarithms, exactly as in the source. -/
def entropyTerm (p : ℝ) : ℝ :=
  -(p * Real.log (p + 1e-6) + (1 - p) * Real.log (1 - p + 1e-6))

/-- Per-time-step priority score:
`l1 * entropy + l2 * mean(sigma) + l3 * (norm(w) * p * (1 - p))` with
`p = sigmoid(mu @ w + b)`. -/
def priorityScore (w : List ℝ) (b l1 l2 l3 : ℝ) (mu sigma : List ℝ) : ℝ :=
  let p := sigmoid (dot mu w + b)
  l1 * entropyTerm p + l2 * meanList sigma + l3 * (norm2 w * p * (1 - p))

/-- Embedding of `compute_priority_scores` on one (unbatched) sequence:
one score per time step. -/
def compute_priority_scores (posterior_mean posterior_std : List (List ℝ))
    (w : List ℝ) (b l1 l2 l3 : ℝ) : List ℝ :=
  List.zipWith (fun mu sigma => priorityScore w b l1 l2 l3 mu sigma)
    posterior_mean posterior_std

end

theorem exp_nineteen_gt : (1e8 : ℝ) < Real.exp 19 := by
  have h1 : (2.7 : ℝ) < Real.exp 1 := by
    have := Real.exp_one_gt_d9
    linarith
  have h2 : Real.exp 19 = Real.exp 1 ^ (19 : ℕ) := by
    rw [← Real.exp_nat_mul]
    norm_num
  have h3 : (2.7 : ℝ) ^ (19 : ℕ) < Real.exp 1 ^ (19 : ℕ) :=
    pow_lt_pow_left₀ h1 (by norm_num) (by norm_num)
  have h4 : (1e8 : ℝ) < (2.7 : ℝ) ^ (19 : ℕ) := by norm_num
  rw [h2]
  linarith

theorem log_ten_lt : Real.log 10 < 2.4 := by
  rw [Real.log_lt_iff_lt_exp (by norm_num)]
  have h1 : (1 + 3/40 : ℝ) ≤ Real.exp (3/40) := by
    have := Real.add_one_le_exp (3/40 : ℝ)
    linarith
  have h2 : ((1 + 3/40 : ℝ)) ^ (32 : ℕ) ≤ Real.exp (3/40) ^ (32 : ℕ) :=
    pow_le_pow_left₀ (by norm_num) h1 32
  have h3 : Real.exp (3/40) ^ (32 : ℕ) = Real.exp (2.4) := by
    rw [← Real.exp_nat_mul]
    norm_num
  have h4 : (10 : ℝ) < (1 + 3/40 : ℝ) ^ (32 : ℕ) := by norm_num
  rw [h3] at h2
  linarith

theorem log_one_add_ge (x : ℝ) (hx : 0 < x) :
    x / (1 + x) ≤ Real.log (1 + x) := by
  have hpos : (0 : ℝ) < 1 + x := by linarith
  have h := Real.log_le_sub_one_of_pos (show (0 : ℝ) < (1 + x)⁻¹ by positivity)
  rw [Real.log_inv] at h
  have heq : (1 + x)⁻¹ - 1 = -(x / (1 + x)) := by
    field_simp
  rw [heq] at h
  linarith

theorem log_millionth : Real.log (1e-6) = -(6 * Real.log 10) := by
  have h : (1e-6 : ℝ) = ((10 : ℝ) ^ (6 : ℕ))⁻¹ := by norm_num
  rw [h, Real.log_inv, Real.log_pow]
  norm_num

theorem entropyTerm_sigmoid_nineteen_neg : entropyTerm (sigmoid 19) < 0 := by
  set p := sigmoid 19 with hp
  have hplt : p < 1 := sigmoid_lt_one 19
  have hppos : 0 < p := sigmoid_pos 19
  have hd : 1 - p < 1e-8 := by
    have hy : Real.exp (-(19 : ℝ)) < 1e-8 := by
      rw [Real.exp_neg]
      rw [inv_lt_comm₀ (Real.exp_pos 19) (by norm_num)]
      have := exp_nineteen_gt
      linarith
    have hy0 : 0 < Real.exp (-(19 : ℝ)) := Real.exp_pos _
    have hden : (0 : ℝ) < 1 + Real.exp (-(19 : ℝ)) := by linarith
    have hval : 1 - p = Real.exp (-(19 : ℝ)) / (1 + Real.exp (-(19 : ℝ))) := by
      rw [hp]
      unfold sigmoid
      field_simp
    rw [hval]
    calc Real.exp (-(19 : ℝ)) / (1 + Real.exp (-(19 : ℝ)))
        ≤ Real.exp (-(19 : ℝ)) := by
          rw [div_le_iff₀ hden]
          nlinarith
      _ < 1e-8 := hy
  have hdpos : 0 < 1 - p := by linarith
  -- first term: p * log(p + 1e-6) is comfortably positive
  have hx : (0 : ℝ) < 1e-6 - (1 - p) := by linarith
  have hxlow : (99 : ℝ) / 100000000 ≤ 1e-6 - (1 - p) := by linarith
  have hxhigh : 1e-6 - (1 - p) ≤ 1e-6 := by linarith
  have hlog1 : (9.8e-7 : ℝ) < Real.log (p + 1e-6) := by
    have harg : p + 1e-6 = 1 + (1e-6 - (1 - p)) := by ring
    have hlb := log_one_add_ge (1e-6 - (1 - p)) hx
    have hfrac : (9.8e-7 : ℝ)
        < (1e-6 - (1 - p)) / (1 + (1e-6 - (1 - p))) := by
      rw [lt_div_iff₀ (by linarith)]
      nlinarith
    rw [harg]
    linarith
  have hterm1 : (9.7e-7 : ℝ) < p * Real.log (p + 1e-6) := by
    nlinarith
  -- second term: (1 - p) * log(1 - p + 1e-6) is small in magnitude
  have hlog2 : -(14.4 : ℝ) < Real.log (1 - p + 1e-6) := by
    have hmono : Real.log (1e-6) < Real.log (1 - p + 1e-6) :=
      Real.log_lt_log (by norm_num) (by linarith)
    have := log_ten_lt
    rw [log_millionth] at hmono
    linarith
  have hlog2neg : Real.log (1 - p + 1e-6) < 0 := by
    have : Real.log (1 - p + 1e-6) < Real.log 1 :=
      Real.log_lt_log (by linarith) (by linarith)
    simpa using this
  have hterm2 : -(1.44e-7 : ℝ) < (1 - p) * Real.log (1 - p + 1e-6) := by
    nlinarith
  unfold entropyTerm
  linarith

/-- C2 (code bug): at the concrete finite inputs
`posterior_mean = [[19]]`, `posterior_std = [[0]]`, `weights = [1]`,
`bias = 0`, `(λ1, λ2, λ3) = (1, 0, 0)`, the per-time-step priority score
computed by `compute_priority_scores` is strictly negative: the `1e-6`
added inside the logarithm makes the entropy term `-p·log(p + 1e-6)`
negative once `p` is within about `1e-6` of 1, contradicting the claimed
guarantee `priority ≥ 0` (and the repository's own test assertion that
scores are non-negative). -/
theorem priority_score_negative :
    (compute_priority_scores [[19]] [[0]] [1] 0 1 0 0).headI < 0 := by
  have hred : (compute_priority_scores [[19]] [[0]] [1] 0 1 0 0).headI
      = entropyTerm (sigmoid (19 * 1 + 0)) := by
    simp [compute_priority_scores, priorityScore, dot, meanList]
  rw [hred]
  norm_num
  exact entropyTerm_sigmoid_nineteen_neg

/-! ### Feature information gain (`compute_feature_information_gain` and
`get_priority_queries`, policy_utils.py lines 200-368) -/

noncomputable section

/-- Embedding of `compute_feature_information_gain`.  The external model is
abstracted by its outputs: `grads[b][t][f]` embeds the gradient tensor
returned by `torch.autograd.grad` and `probs[b]` the predicted migraine
probability.  `gain = |gradient| * p*(1-p) * (1 - availability)`, and a
missing availability mask defaults to all-ones
(`torch.ones_like(x)`). -/
def compute_feature_information_gain (grads : List (List (List ℝ)))
    (probs : List ℝ)
    (feature_availability : Option (List (List (List ℝ)))) :
    List (List (List ℝ)) :=
  let avail := feature_availability.getD
    (grads.map fun gb => gb.map fun gt => gt.map fun _ => 1)
  List.zipWith
    (fun (gu : List (List ℝ) × ℝ) ab =>
      List.zipWith
        (fun gt at2 => List.zipWith
          (fun g a => |g| * (gu.2 * (1 - gu.2)) * (1 - a)) gt at2)
        gu.1 ab)
    (grads.zip probs) avail

/-- Maximum of a tensor row (`torch.max` over the last dim of one row);
`0` is a junk value for the empty row, on which the source raises. -/
def tensorMax : List ℝ → ℝ
  | [] => 0
  | a :: t => t.foldl max a

/-- First index attaining the maximum (`torch.argmax` over one column). -/
def tensorArgmax (l : List ℝ) : ℕ := l.indexOf (tensorMax l)

/-- Maximum over time of one feature column
(`feature_gains[b].max(dim=0)` at index `f`). -/
def colMax (gb : List (List ℝ)) (f : ℕ) : ℝ :=
  tensorMax (gb.map fun row => row.getD f 0)

end

/-- One temporal query `{hour, score, features}` (features by index). -/
structure TemporalQuery where
  hour : ℕ
  score : ℝ
  features : List ℕ

/-- One feature query `{feature, score, best_hour}` (feature by index). -/
structure FeatureQuery where
  feature : ℕ
  score : ℝ
  best_hour : ℕ

/-- Per-sequence recommendation object of `get_priority_queries`. -/
structure QueryRecommendation where
  temporal_queries : List TemporalQuery
  feature_queries : List FeatureQuery

noncomputable section

/-- Embedding of `get_priority_queries`: per batch element, the top
`min(k_temporal, T)` hours by max-over-features gain (each with its top-3
contributing features) and the top `min(k_features, F)` features by
max-over-time gain (each with its best measurement hour). -/
def get_priority_queries (grads : List (List (List ℝ))) (probs : List ℝ)
    (feature_availability : Option (List (List (List ℝ))))
    (k_temporal k_features : ℕ) : List QueryRecommendation :=
  let F := grads.headI.headI.length
  (compute_feature_information_gain grads probs feature_availability).map
    fun gb =>
      let temporal_scores := gb.map tensorMax
      let top_temporal := select_topk_hours temporal_scores k_temporal
      let temporal_queries := top_temporal.map fun h =>
        ⟨h, temporal_scores.getD h 0, select_topk_hours (gb.getD h []) 3⟩
      let feature_scores := (List.range F).map (colMax gb)
      let top_features := select_topk_hours feature_scores k_features
      let feature_queries := top_features.map fun f =>
        ⟨f, feature_scores.getD f 0,
         tensorArgmax (gb.map fun row => row.getD f 0)⟩
      ⟨temporal_queries, feature_queries⟩

end

theorem tensorMax_zero {l : List ℝ} (h : ∀ x ∈ l, x = 0) :
    tensorMax l = 0 := by
  cases l with
  | nil => rfl
  | cons a t =>
    rw [tensorMax]
    have ha : a = 0 := h a (List.mem_cons_self _ _)
    have hgen : ∀ (acc : ℝ), acc = 0 → (∀ x ∈ t, x = (0 : ℝ)) →
        t.foldl max acc = 0 := by
      clear ha h
      induction t with
      | nil => intro acc hacc _; simpa using hacc
      | cons b t ih =>
        intro acc hacc hall
        rw [List.foldl_cons]
        refine ih (max acc b) ?_ fun x hx => hall x (List.mem_cons_of_mem _ hx)
        rw [hacc, hall b (List.mem_cons_self _ _), max_self]
    exact hgen a ha fun x hx => h x (List.mem_cons_of_mem _ hx)

theorem getD_zero {l : List ℝ} (h : ∀ x ∈ l, x = 0) (i : ℕ) :
    l.getD i 0 = 0 := by
  rw [List.getD_eq_getElem?_getD]
  cases hg : l[i]? with
  | none => rfl
  | some a =>
    have : a ∈ l := mem_of_some_getElem hg
    simpa using h a this

/-- C10: with `feature_availability = None` the mask defaults to all-ones,
so every gain returned by `compute_feature_information_gain` is exactly 0,
and consequently every temporal-query and feature-query score produced by
`get_priority_queries` without an availability mask is exactly 0 — the
rankings are over an all-zero gain tensor. -/
theorem information_gain_none_zero (grads : List (List (List ℝ)))
    (probs : List ℝ) (k_temporal k_features : ℕ) :
    (∀ gb ∈ compute_feature_information_gain grads probs none,
      ∀ gt ∈ gb, ∀ g ∈ gt, g = 0) ∧
    (∀ rec ∈ get_priority_queries grads probs none k_temporal k_features,
      (∀ q ∈ rec.temporal_queries, q.score = 0) ∧
      (∀ q ∈ rec.feature_queries, q.score = 0)) := by
  have hzero : ∀ gb ∈ compute_feature_information_gain grads probs none,
      ∀ gt ∈ gb, ∀ g ∈ gt, g = 0 := by
    intro gb hgb gt hgt g hg
    simp only [compute_feature_information_gain, Option.getD] at hgb
    obtain ⟨gu, hgu, ab, hab, rfl⟩ := mem_zipWith_exists hgb
    obtain ⟨gb0, hgb0, rfl⟩ := List.mem_map.1 hab
    obtain ⟨gt0, hgt0, at0, hat0, rfl⟩ := mem_zipWith_exists hgt
    obtain ⟨row0, hrow0, rfl⟩ := List.mem_map.1 hat0
    obtain ⟨g0, hg0, a0, ha0, rfl⟩ := mem_zipWith_exists hg
    obtain ⟨x0, hx0, rfl⟩ := List.mem_map.1 ha0
    ring
  refine ⟨hzero, ?_⟩
  intro rec hrec
  simp only [get_priority_queries] at hrec
  obtain ⟨gb, hgb, rfl⟩ := List.mem_map.1 hrec
  have hgbz : ∀ gt ∈ gb, ∀ g ∈ gt, g = 0 := hzero gb hgb
  constructor
  · intro q hq
    simp only [List.mem_map] at hq
    obtain ⟨h, _, rfl⟩ := hq
    apply getD_zero
    intro x hx
    obtain ⟨gt, hgt, rfl⟩ := List.mem_map.1 hx
    exact tensorMax_zero (hgbz gt hgt)
  · intro q hq
    simp only [List.mem_map] at hq
    obtain ⟨f, _, rfl⟩ := hq
    apply getD_zero
    intro x hx
    obtain ⟨f2, _, rfl⟩ := List.mem_map.1 hx
    unfold colMax
    apply tensorMax_zero
    intro y hy
    obtain ⟨row, hrow, rfl⟩ := List.mem_map.1 hy
    exact getD_zero (hgbz row hrow) f2

/-! ### Latent-state evolution and population simulation (simulator.py
lines 114-262) -/

noncomputable section

/-- Derived mean/std used by `_compute_input_effect` to normalize one
feature: declared `mu` with `sigma` defaulting to 1; else the closed-form
lognormal mean/std (`KeyError` when `sigma_ln` is missing); else the
uniform midpoint and quarter-range (`KeyError` when `max` is missing);
else `(0, 1)`. -/
def priorMeanStd (prior : Prior) : Except String (ℝ × ℝ) :=
  match prior.mu with
  | some mu => .ok (mu, prior.sigma.getD 1)
  | none =>
    match prior.mu_ln with
    | some muLn =>
      match prior.sigma_ln with
      | some sLn =>
        .ok (Real.exp (muLn + sLn ^ 2 / 2),
          Real.sqrt ((Real.exp (sLn ^ 2) - 1)
            * Real.exp (2 * muLn + sLn ^ 2)))
      | none => .error "KeyError: sigma_ln"
    | none =>
      match prior.min with
      | some lo =>
        match prior.max with
        | some hi => .ok ((lo + hi) / 2, (hi - lo) / 4)
        | none => .error "KeyError: max"
      | none => .ok (0, 1)

/-- Normalization loop of `_compute_input_effect`:
`(value - mean) / max(std, 0.1)` for a feature with a prior, identity for
one without. -/
def normalizeObs (cfg : SimConfig) :
    List (String × ℝ) → Except String (List ℝ)
  | [] => .ok []
  | (f, x) :: rest =>
    match findPrior cfg f with
    | some prior =>
      match priorMeanStd prior with
      | .error e => .error e
      | .ok ms =>
        match normalizeObs cfg rest with
        | .error e => .error e
        | .ok vs => .ok ((x - ms.1) / max ms.2 0.1 :: vs)
    | none =>
      match normalizeObs cfg rest with
      | .error e => .error e
      | .ok vs => .ok (x :: vs)

/-- Matrix-vector product over row-major lists (`M @ v`). -/
def matVec (M : List (List ℝ)) (v : List ℝ) : List ℝ :=
  M.map fun row => dot row v

/-- Elementwise vector addition of equal-length NumPy vectors. -/
def addVec (u v : List ℝ) : List ℝ := List.zipWith (· + ·) u v

/-- Embedding of `_compute_input_effect`: `B @ normalize(observations)`. -/
def compute_input_effect (cfg : SimConfig) (observations : List ℝ) :
    Except String (List ℝ) :=
  (normalizeObs cfg (cfg.feature_order.zip observations)).map
    (matVec cfg.input_matrix)

/-- Embedding of `_evolve_latent_state`:
`A @ Z + B @ u_t + randn(latent_dim) * process_noise`, consuming
`latent_dim` draws for the process noise. -/
def evolve_latent_state (ω : ℕ → ℝ) (cfg : SimConfig) (Z obs : List ℝ)
    (p : ℕ) : Except String (List ℝ × ℕ) :=
  match compute_input_effect cfg obs with
  | .error e => .error e
  | .ok inp =>
    let az := addVec (matVec cfg.state_transition_matrix Z) inp
    let noise := (List.range cfg.latent_dim).map fun j =>
      ω (p + j) * cfg.process_noise.getD j 0
    .ok (addVec az noise, p + cfg.latent_dim)

end

/-- One row of the emitted dataset (a simulated day).  The source stores
the four latent components as columns `Z_stress .. Z_envLoad`
(latent dimension 4); the snapshot is kept here as the list `Z`. -/
structure DailyRecord where
  user_id : ℕ
  day : ℕ
  Z : List ℝ
  migraine_prob : ℝ
  migraine : ℕ
  features : List ℝ
  dow_sin : ℝ
  dow_cos : ℝ
  woy_sin : ℝ
  woy_cos : ℝ

noncomputable section

/-- Day loop of `simulate_user`: sample the observations, evolve `Z`,
compute the migraine probability, draw the outcome
(`rng.binomial(1, p)` consumes one draw; outcome 1 exactly when the
underlying uniform variate is below `p`), attach the temporal features
(start weekday 0, the source default) and emit the record. -/
def simulateDaysGo (ω : ℕ → ℝ) (cfg : SimConfig) (u : ℕ) :
    List ℕ → List ℝ → ℕ → Except String (List DailyRecord × ℕ)
  | [], _, p => .ok ([], p)
  | day :: rest, Z, p =>
    match sample_observations ω cfg p with
    | .error e => .error e
    | .ok (obs, _warns, p1) =>
      match evolve_latent_state ω cfg Z obs p1 with
      | .error e => .error e
      | .ok (Z2, p2) =>
        let prob := migraine_probability cfg.migraine_weights
          cfg.migraine_bias Z2
        let mig : ℕ := if ω p2 < prob then 1 else 0
        match simulateDaysGo ω cfg u rest Z2 (p2 + 1) with
        | .error e => .error e
        | .ok (recs, p3) =>
          .ok (⟨u, day, Z2, prob, mig, obs,
              day_of_week_sin day 0, day_of_week_cos day 0,
              week_of_year_sin day, week_of_year_cos day⟩ :: recs, p3)

/-- Embedding of `simulate_user`: `Z` is initialized from `latent_dim`
draws scaled by 0.1 (`rng.randn(latent_dim) * 0.1`), then the day loop
runs over `0 .. horizon-1`.  The RNG position `p` is the state of the
single shared `RandomState` at call time. -/
def simulate_user (ω : ℕ → ℝ) (cfg : SimConfig) (u : ℕ) (p : ℕ) :
    Except String (List DailyRecord × ℕ) :=
  simulateDaysGo ω cfg u (List.range cfg.horizon)
    ((List.range cfg.latent_dim).map fun j => ω (p + j) * 0.1)
    (p + cfg.latent_dim)

/-- The user loop of `simulate_population`, generalized to an arbitrary
execution order (the source always iterates `range(n_users)`); the single
shared `RandomState` is threaded from each user to the next.  Returns the
per-user record blocks before concatenation. -/
def simUsersGo (ω : ℕ → ℝ) (cfg : SimConfig) :
    List ℕ → ℕ → Except String (List (List DailyRecord) × ℕ)
  | [], p => .ok ([], p)
  | u :: rest, p =>
    match simulate_user ω cfg u p with
    | .error e => .error e
    | .ok (recs, p1) =>
      match simUsersGo ω cfg rest p1 with
      | .error e => .error e
      | .ok (blocks, p2) => .ok (recs :: blocks, p2)

/-- `simulate_population` run in a given user order: the concatenation of
the per-user record blocks (`pd.concat`). -/
def simulate_population_order (ω : ℕ → ℝ) (cfg : SimConfig)
    (order : List ℕ) : Except String (List DailyRecord) :=
  (simUsersGo ω cfg order 0).map fun r => r.1.flatten

/-- Embedding of `simulate_population`: sequential order `0 .. n_users-1`
over the shared RNG stream. -/
def simulate_population (ω : ℕ → ℝ) (cfg : SimConfig) :
    Except String (List DailyRecord) :=
  simulate_population_order ω cfg (List.range cfg.n_users)

/-- Concrete configuration for the order-dependence counterexample: two
users, horizon one day, latent dimension 4 with all-zero dynamics, and a
single standard-normal feature. -/
def cfgC : SimConfig :=
  ⟨2, 1, 4,
   [[0, 0, 0, 0], [0, 0, 0, 0], [0, 0, 0, 0], [0, 0, 0, 0]],
   [[0], [0], [0], [0]],
   [0, 0, 0, 0],
   [0, 0, 0, 0], 0,
   ["f"],
   [("f", ⟨some "normal", some 0, some 1, none, none, none, none⟩)]⟩

/-- The first feature value recorded for user `u` in a dataset. -/
def firstFeatureOfUser (res : Except String (List DailyRecord)) (u : ℕ) :
    Option ℝ :=
  match res with
  | .error _ => none
  | .ok l =>
    match l.filter fun r => r.user_id == u with
    | [] => none
    | r :: _ => r.features.head?

end

theorem order_dependence_left :
    firstFeatureOfUser (simulate_population_order ωid cfgC [0, 1]) 1
      = some (0 + 1 * ωid 14) := rfl

theorem order_dependence_right :
    firstFeatureOfUser (simulate_population_order ωid cfgC [1, 0]) 1
      = some (0 + 1 * ωid 4) := rfl

/-- C1 counterexample: with the concrete configuration `cfgC` and the
stream `ωid`, the records emitted for user 1 differ between the execution
orders `[0, 1]` and `[1, 0]` (first recorded feature `ωid 14` versus
`ωid 4`): the single shared `RandomState` is threaded from user to user,
so user 1's records depend on which users were simulated before it — there
is no per-user sub-seed in `simulate_population`. -/
theorem simulate_population_order_dependent :
    firstFeatureOfUser (simulate_population_order ωid cfgC [0, 1]) 1
      ≠ firstFeatureOfUser (simulate_population_order ωid cfgC [1, 0]) 1 := by
  rw [order_dependence_left, order_dependence_right]
  intro h
  rw [Option.some_inj] at h
  simp only [ωid] at h
  norm_num at h

/-- Number of RNG draws `_sample_feature` consumes for a prior: none for a
cyclical feature, one for every other recognized kind. -/
def priorDraws (prior : Prior) : ℕ :=
  let distType := prior.dist.getD "normal"
  if distType = "normal" then 1
  else if distType = "lognormal" then 1
  else if distType = "uniform" then 1
  else if distType = "exponential" then 1
  else if distType = "cyclical" then 0
  else 1

/-- Draws one feature of the ordered list consumes (the missing-prior
fallback `randn()` consumes one). -/
def featureDraws (cfg : SimConfig) (f : String) : ℕ :=
  match findPrior cfg f with
  | none => 1
  | some prior => priorDraws prior

/-- Draws one simulated day consumes: the feature draws, `latent_dim`
process-noise draws, one Bernoulli draw. -/
def dayDraws (cfg : SimConfig) : ℕ :=
  (cfg.feature_order.map (featureDraws cfg)).sum + cfg.latent_dim + 1

/-- Draws one user consumes: `latent_dim` for the initial state plus
`horizon` days. -/
def userDraws (cfg : SimConfig) : ℕ :=
  cfg.latent_dim + cfg.horizon * dayDraws cfg

/-- Whether `_compute_input_effect` derives a mean/std for this prior
without raising. -/
def priorNormOk (prior : Prior) : Bool :=
  match prior.mu with
  | some _ => true
  | none =>
    match prior.mu_ln with
    | some _ => prior.sigma_ln.isSome
    | none =>
      match prior.min with
      | some _ => prior.max.isSome
      | none => true

/-- A configuration on which per-user simulation never raises: every
feature of the ordered list either has no registry entry (silent
standard-normal fallback) or a prior that both samples and normalizes
without raising. -/
def cfgOk (cfg : SimConfig) : Bool :=
  cfg.feature_order.all fun f =>
    match findPrior cfg f with
    | some prior => !(sampleFatal prior) && priorNormOk prior
    | none => true

theorem clipPrior_snd (prior : Prior) (r : ℝ × ℕ) :
    (clipPrior prior r).2 = r.2 := by
  unfold clipPrior
  cases prior.min <;> cases prior.max <;> rfl

theorem sample_feature_ok (ω : ℕ → ℝ) (prior : Prior) (p : ℕ)
    (h : sampleFatal prior = false) :
    ∃ v, sample_feature ω prior p = .ok (v, p + priorDraws prior) := by
  simp only [sample_feature, sample_feature_base, priorDraws]
  simp only [sampleFatal] at h
  split_ifs at h ⊢ with h1 h2 h3 h4 h5
  · rw [Bool.or_eq_false_iff] at h
    cases hmu : prior.mu with
    | none => rw [hmu] at h; exact absurd h.1 (by simp)
    | some m =>
      cases hsg : prior.sigma with
      | none => rw [hsg] at h; exact absurd h.2 (by simp)
      | some s =>
        refine ⟨(clipPrior prior (rngNormal ω p m s)).1, ?_⟩
        simp only [hmu, hsg, Except.map]
        rw [Except.ok.injEq]
        apply Prod.ext
        · rfl
        · rw [clipPrior_snd]
          rfl
  · rw [Bool.or_eq_false_iff] at h
    cases hmu : prior.mu_ln with
    | none => rw [hmu] at h; exact absurd h.1 (by simp)
    | some m =>
      cases hsg : prior.sigma_ln with
      | none => rw [hsg] at h; exact absurd h.2 (by simp)
      | some s =>
        refine ⟨(clipPrior prior (rngLognormal ω p m s)).1, ?_⟩
        simp only [hmu, hsg, Except.map]
        rw [Except.ok.injEq]
        apply Prod.ext
        · rfl
        · rw [clipPrior_snd]
          rfl
  · rw [Bool.or_eq_false_iff] at h
    cases hmu : prior.min with
    | none => rw [hmu] at h; exact absurd h.1 (by simp)
    | some m =>
      cases hsg : prior.max with
      | none => rw [hsg] at h; exact absurd h.2 (by simp)
      | some s =>
        refine ⟨(clipPrior prior (rngUniform ω p m s)).1, ?_⟩
        simp only [hmu, hsg, Except.map]
        rw [Except.ok.injEq]
        apply Prod.ext
        · rfl
        · rw [clipPrior_snd]
          rfl
  · refine ⟨(clipPrior prior (rngExponential ω p (prior.mu_ln.getD 1))).1, ?_⟩
    simp only [Except.map]
    rw [Except.ok.injEq]
    apply Prod.ext
    · rfl
    · rw [clipPrior_snd]
      rfl
  · refine ⟨(clipPrior prior ((0 : ℝ), p)).1, ?_⟩
    simp only [Except.map]
    rw [Except.ok.injEq]
    apply Prod.ext
    · rfl
    · rw [clipPrior_snd]
      rfl

theorem priorMeanStd_ok (prior : Prior) (h : priorNormOk prior = true) :
    ∃ ms, priorMeanStd prior = .ok ms := by
  unfold priorNormOk at h
  unfold priorMeanStd
  cases hmu : prior.mu with
  | some m => exact ⟨_, rfl⟩
  | none =>
    rw [hmu] at h
    cases hml : prior.mu_ln with
    | some m2 =>
      rw [hml] at h
      cases hsl : prior.sigma_ln with
      | some s2 => exact ⟨_, rfl⟩
      | none => rw [hsl] at h; exact absurd h (by simp)
    | none =>
      rw [hml] at h
      cases hmn : prior.min with
      | some lo =>
        rw [hmn] at h
        cases hmx : prior.max with
        | some hi => exact ⟨_, rfl⟩
        | none => rw [hmx] at h; exact absurd h (by simp)
      | none => exact ⟨_, rfl⟩

theorem sampleObsGo_ok (ω : ℕ → ℝ) (cfg : SimConfig) :
    ∀ (fs : List String) (p : ℕ),
      (∀ f ∈ fs, ∀ prior, findPrior cfg f = some prior →
        sampleFatal prior = false) →
      ∃ obs, sampleObsGo ω cfg fs p
        = .ok (obs, [], p + (fs.map (featureDraws cfg)).sum)
  | [], p, _ => ⟨[], by simp [sampleObsGo]⟩
  | f :: rest, p, h => by
    rw [sampleObsGo]
    cases hf : findPrior cfg f with
    | some prior =>
      obtain ⟨v, hv⟩ := sample_feature_ok ω prior p
        (h f (List.mem_cons_self _ _) prior hf)
      obtain ⟨obs, hobs⟩ := sampleObsGo_ok ω cfg rest (p + priorDraws prior)
        (fun g hg pr hpr => h g (List.mem_cons_of_mem _ hg) pr hpr)
      refine ⟨v :: obs, ?_⟩
      simp only [hv, hobs, List.map_cons, List.sum_cons, featureDraws, hf]
      rw [Nat.add_assoc]
    | none =>
      obtain ⟨obs, hobs⟩ := sampleObsGo_ok ω cfg rest (p + 1)
        (fun g hg pr hpr => h g (List.mem_cons_of_mem _ hg) pr hpr)
      refine ⟨ω p :: obs, ?_⟩
      simp only [hobs, List.map_cons, List.sum_cons, featureDraws, hf]
      rw [Nat.add_assoc]

theorem normalizeObs_ok (cfg : SimConfig) :
    ∀ pairs : List (String × ℝ),
      (∀ pr ∈ pairs, ∀ prior, findPrior cfg pr.1 = some prior →
        priorNormOk prior = true) →
      ∃ vs, normalizeObs cfg pairs = .ok vs
  | [], _ => ⟨[], rfl⟩
  | (f, x) :: rest, h => by
    rw [normalizeObs]
    obtain ⟨vs, hvs⟩ := normalizeObs_ok cfg rest
      (fun pr hpr prior hprior => h pr (List.mem_cons_of_mem _ hpr) prior hprior)
    cases hf : findPrior cfg f with
    | some prior =>
      obtain ⟨ms, hms⟩ := priorMeanStd_ok prior
        (h (f, x) (List.mem_cons_self _ _) prior hf)
      exact ⟨(x - ms.1) / max ms.2 0.1 :: vs, by simp only [hms, hvs]⟩
    | none => exact ⟨x :: vs, by simp only [hvs]⟩

theorem compute_input_effect_ok (cfg : SimConfig) (obs : List ℝ)
    (h : ∀ f ∈ cfg.feature_order, ∀ prior, findPrior cfg f = some prior →
      priorNormOk prior = true) :
    ∃ u, compute_input_effect cfg obs = .ok u := by
  obtain ⟨vs, hvs⟩ := normalizeObs_ok cfg (cfg.feature_order.zip obs)
    (fun pr hpr prior hprior =>
      h pr.1 (List.of_mem_zip hpr).1 prior hprior)
  exact ⟨matVec cfg.input_matrix vs,
    by rw [compute_input_effect, hvs]; rfl⟩

theorem evolve_latent_state_ok (ω : ℕ → ℝ) (cfg : SimConfig)
    (Z obs : List ℝ) (p : ℕ)
    (h : ∀ f ∈ cfg.feature_order, ∀ prior, findPrior cfg f = some prior →
      priorNormOk prior = true) :
    ∃ Z2, evolve_latent_state ω cfg Z obs p = .ok (Z2, p + cfg.latent_dim) := by
  obtain ⟨u, hu⟩ := compute_input_effect_ok cfg obs h
  rw [evolve_latent_state, hu]
  exact ⟨_, rfl⟩

theorem cfgOk_sample {cfg : SimConfig} (h : cfgOk cfg = true) :
    ∀ f ∈ cfg.feature_order, ∀ prior, findPrior cfg f = some prior →
      sampleFatal prior = false := by
  intro f hf prior hprior
  have := List.all_eq_true.1 h f hf
  rw [hprior] at this
  rw [Bool.and_eq_true] at this
  rw [← Bool.not_eq_true]
  intro hcontra
  rw [hcontra] at this
  exact absurd this.1 (by simp)

theorem cfgOk_norm {cfg : SimConfig} (h : cfgOk cfg = true) :
    ∀ f ∈ cfg.feature_order, ∀ prior, findPrior cfg f = some prior →
      priorNormOk prior = true := by
  intro f hf prior hprior
  have := List.all_eq_true.1 h f hf
  rw [hprior] at this
  rw [Bool.and_eq_true] at this
  exact this.2

theorem simulateDaysGo_ok (ω : ℕ → ℝ) (cfg : SimConfig) (u : ℕ)
    (hcfg : cfgOk cfg = true) :
    ∀ (days : List ℕ) (Z : List ℝ) (p : ℕ),
      ∃ recs, simulateDaysGo ω cfg u days Z p
        = .ok (recs, p + days.length * dayDraws cfg)
  | [], Z, p => ⟨[], by simp [simulateDaysGo]⟩
  | day :: rest, Z, p => by
    rw [simulateDaysGo]
    obtain ⟨obs, hobs⟩ := sampleObsGo_ok ω cfg cfg.feature_order p
      (cfgOk_sample hcfg)
    have hso : sample_observations ω cfg p
        = .ok (obs, [], p + (cfg.feature_order.map (featureDraws cfg)).sum) :=
      hobs
    obtain ⟨Z2, hZ2⟩ := evolve_latent_state_ok ω cfg Z obs
      (p + (cfg.feature_order.map (featureDraws cfg)).sum) (cfgOk_norm hcfg)
    obtain ⟨recs, hrecs⟩ := simulateDaysGo_ok ω cfg u hcfg rest Z2
      (p + (cfg.feature_order.map (featureDraws cfg)).sum + cfg.latent_dim + 1)
    simp only [hso, hZ2, hrecs]
    have hpos : p + (List.map (featureDraws cfg) cfg.feature_order).sum
        + cfg.latent_dim + 1 + rest.length * dayDraws cfg
        = p + (day :: rest).length * dayDraws cfg := by
      simp only [List.length_cons, dayDraws]
      ring
    rw [hpos]
    exact ⟨_, rfl⟩

theorem simulate_user_ok (ω : ℕ → ℝ) (cfg : SimConfig) (u : ℕ)
    (hcfg : cfgOk cfg = true) (p : ℕ) :
    ∃ recs, simulate_user ω cfg u p = .ok (recs, p + userDraws cfg) := by
  obtain ⟨recs, hrecs⟩ := simulateDaysGo_ok ω cfg u hcfg
    (List.range cfg.horizon)
    ((List.range cfg.latent_dim).map fun j => ω (p + j) * 0.1)
    (p + cfg.latent_dim)
  refine ⟨recs, ?_⟩
  rw [simulate_user, hrecs]
  congr 1
  apply Prod.ext
  · rfl
  · simp only [List.length_range, userDraws]
    ring

theorem simUsersGo_ok (ω : ℕ → ℝ) (cfg : SimConfig)
    (hcfg : cfgOk cfg = true) :
    ∀ (order : List ℕ) (p : ℕ),
      ∃ blocks, simUsersGo ω cfg order p
        = .ok (blocks, p + order.length * userDraws cfg)
  | [], p => ⟨[], by simp [simUsersGo]⟩
  | u0 :: rest, p => by
    rw [simUsersGo]
    obtain ⟨recs0, hrecs0⟩ := simulate_user_ok ω cfg u0 hcfg p
    obtain ⟨blocks, hblocks⟩ := simUsersGo_ok ω cfg hcfg rest
      (p + userDraws cfg)
    refine ⟨recs0 :: blocks, ?_⟩
    simp only [hrecs0, hblocks]
    congr 1
    apply Prod.ext
    · rfl
    · simp only [List.length_cons]
      ring

theorem simUsersGo_block (ω : ℕ → ℝ) (cfg : SimConfig)
    (hcfg : cfgOk cfg = true) :
    ∀ (order : List ℕ) (p i u : ℕ), order[i]? = some u →
      ∃ recs blocks,
        simUsersGo ω cfg order p
          = .ok (blocks, p + order.length * userDraws cfg) ∧
        blocks[i]? = some recs ∧
        simulate_user ω cfg u (p + i * userDraws cfg)
          = .ok (recs, p + i * userDraws cfg + userDraws cfg)
  | [], p, i, u, hu => by
    rw [List.getElem?_nil] at hu
    exact Option.noConfusion hu
  | u0 :: rest, p, i, u, hu => by
    cases i with
    | zero =>
      have hu2 : u0 = u := by
        rw [List.getElem?_cons_zero, Option.some_inj] at hu
        exact hu
      obtain ⟨recs0, hrecs0⟩ := simulate_user_ok ω cfg u0 hcfg p
      obtain ⟨blocks, hblocks⟩ := simUsersGo_ok ω cfg hcfg rest
        (p + userDraws cfg)
      refine ⟨recs0, recs0 :: blocks, ?_, ?_, ?_⟩
      · rw [simUsersGo]
        simp only [hrecs0, hblocks]
        congr 1
        apply Prod.ext
        · rfl
        · simp only [List.length_cons]
          ring
      · exact List.getElem?_cons_zero
      · rw [← hu2]
        have hzero : p + 0 * userDraws cfg = p := by ring
        rw [hzero]
        exact hrecs0
    | succ i =>
      rw [List.getElem?_cons_succ] at hu
      obtain ⟨recs, blocks, h1, h2, h3⟩ :=
        simUsersGo_block ω cfg hcfg rest (p + userDraws cfg) i u hu
      obtain ⟨recs0, hrecs0⟩ := simulate_user_ok ω cfg u0 hcfg p
      refine ⟨recs, recs0 :: blocks, ?_, ?_, ?_⟩
      · rw [simUsersGo]
        simp only [hrecs0, h1]
        congr 1
        apply Prod.ext
        · rfl
        · simp only [List.length_cons]
          ring
      · rw [List.getElem?_cons_succ]
        exact h2
      · have harith : p + userDraws cfg + i * userDraws cfg
            = p + (i + 1) * userDraws cfg := by ring
        rw [← harith]
        exact h3

/-- C1 amended: `simulate_population` has no per-user sub-seed — the single
shared `RandomState` is threaded through the users in execution order, so a
user's records depend on the user's POSITION in that order, not only on the
global seed, the configuration and the user id.  Precisely: on a
configuration that samples without error, every user consumes exactly
`userDraws cfg` draws, and the `i`-th simulated user's record block equals
`simulate_user` run with the shared stream advanced by `i * userDraws cfg`
draws — for every execution order and whichever user stands at position
`i`.  A fixed order therefore reproduces the same dataset on the same
seed, but reordering users changes their records (see the
counterexample). -/
theorem simulate_population_block_position (ω : ℕ → ℝ) (cfg : SimConfig)
    (hcfg : cfgOk cfg = true) (order : List ℕ) (i u : ℕ)
    (hu : order[i]? = some u) :
    ∃ recs blocks,
      simUsersGo ω cfg order 0
        = .ok (blocks, order.length * userDraws cfg) ∧
      blocks[i]? = some recs ∧
      simulate_user ω cfg u (i * userDraws cfg)
        = .ok (recs, i * userDraws cfg + userDraws cfg) := by
  obtain ⟨recs, blocks, h1, h2, h3⟩ :=
    simUsersGo_block ω cfg hcfg order 0 i u hu
  refine ⟨recs, blocks, ?_, h2, ?_⟩
  · simpa using h1
  · simpa using h3

/-- Witness for C1's amended theorem at the concrete configuration `cfgC`,
order `[0, 1]`, position 1, user 1. -/
theorem simulate_population_block_position_witness :
    ∃ recs blocks,
      simUsersGo ωid cfgC [0, 1] 0
        = .ok (blocks, ([0, 1] : List ℕ).length * userDraws cfgC) ∧
      blocks[1]? = some recs ∧
      simulate_user ωid cfgC 1 (1 * userDraws cfgC)
        = .ok (recs, 1 * userDraws cfgC + userDraws cfgC) :=
  simulate_population_block_position ωid cfgC rfl [0, 1] 1 1 rfl
